import Mathlib

/-!
# Verification of the Plex music reorganizer (`src/scripts/reformat_music.ps1`)

A shallow embedding of the PowerShell script that reorganizes a flat directory
of MP3 files into an `Artist/Album/NN - Title.mp3` hierarchy, together with
proofs about its per-field resolution functions and its run loop.

Modelling conventions:
* Strings are Lean `String`s; all operations are implemented over `List Char`.
* Whitespace is the ASCII class matched by .NET `Trim` / regex `\s`
  (space and the control characters 9–13).
* The Windows invalid-file-name characters of
  `[IO.Path]::GetInvalidFileNameChars()` are the control characters 0–31 and
  `"` `<` `>` `|` `:` `*` `?` `\` `/`.
* The filesystem is a pair of finite sets (lists) of directory paths and file
  paths.  `Join-Path` is string concatenation with `/`.
* The COM metadata reader is an oracle: each file carries `Option Tags`
  (`none` models a reader failure); `Move-Item` failures are modelled by an
  oracle `moveOk : String → Bool` keyed by the destination path.
-/

namespace PlexReorg

/-- ASCII whitespace, as removed by .NET `String.Trim` and matched by `\s`:
space and the control characters TAB, LF, VT, FF, CR (9–13). -/
def isWsChar (c : Char) : Bool :=
  c = ' ' || (9 ≤ c.toNat && c.toNat ≤ 13)

/-- Drop trailing characters satisfying `p`. -/
def dropTrail (p : Char → Bool) (l : List Char) : List Char :=
  (l.reverse.dropWhile p).reverse

/-- Strip leading and trailing whitespace from a character list. -/
def trimList (l : List Char) : List Char :=
  dropTrail isWsChar (l.dropWhile isWsChar)

/-- .NET `String.Trim()`. -/
def psTrim (s : String) : String :=
  String.mk (trimList s.data)

/-- .NET `[string]::IsNullOrWhiteSpace` (a Lean `String` is never null). -/
def isBlank (s : String) : Bool :=
  s.data.all isWsChar

/-- PowerShell truthiness of a string: non-empty. -/
def psTruthy (s : String) : Bool :=
  !s.data.isEmpty

/-- A character stripped by `Sanitize-Name`: one of Windows'
`[IO.Path]::GetInvalidFileNameChars()` (controls 0–31 and the nine reserved
punctuation characters). -/
def invalidFileNameChar (c : Char) : Bool :=
  c.toNat < 32 || c = '"' || c = '<' || c = '>' || c = '|' ||
  c = ':' || c = '*' || c = '?' || c = '\\' || c = '/'

/-- `Sanitize-Name`: remove every invalid file-name character, trim the
result, and substitute `"Unknown"` when nothing printable is left. -/
def sanitizeName (name : String) : String :=
  let stripped := String.mk (name.data.filter (fun c => !invalidFileNameChar c))
  let t := psTrim stripped
  if isBlank t then "Unknown" else t

/-- A decimal digit, the character class `\d` of the regex `(\d+)`. -/
def isDigitCh (c : Char) : Bool :=
  48 ≤ c.toNat && c.toNat ≤ 57

/-- Numeric value of a digit list (most significant first). -/
def natOfDigits (l : List Char) : Nat :=
  l.foldl (fun n c => n * 10 + (c.toNat - 48)) 0

/-- The character for a digit value `0 ≤ n ≤ 9`. -/
def digitChar (n : Nat) : Char := Char.ofNat (48 + n)

/-- Decimal digits of `n`, most significant first, with explicit fuel (the
fuel is sufficient whenever `n < fuel`). -/
def natDigitsAux : Nat → Nat → List Char
  | 0, _ => []
  | fuel + 1, n =>
    if n < 10 then [digitChar n]
    else natDigitsAux fuel (n / 10) ++ [digitChar (n % 10)]

/-- Decimal digits of `n`, most significant first. -/
def natDigits (n : Nat) : List Char := natDigitsAux (n + 1) n

/-- `[int]::ToString("00")` for a non-negative value: decimal rendering,
zero-padded to a minimum width of two. -/
def pad2 (n : Nat) : String :=
  if n < 10 then String.mk ['0', digitChar n] else String.mk (natDigits n)

/-- `Format-TrackNumber`: blank input yields `"00"`; otherwise the regex
`(\d+)` captures the first maximal run of decimal digits, which is parsed as
an integer and rendered via `ToString("00")`; no digit at all yields `"00"`. -/
def formatTrackNumber (trackNum : String) : String :=
  if isBlank trackNum then "00"
  else
    match trackNum.data.dropWhile (fun c => !isDigitCh c) with
    | [] => "00"
    | c :: rest => pad2 (natOfDigits ((c :: rest).takeWhile isDigitCh))

/-- Does the character pattern (a list of single-character predicates) match
at the head of the list? -/
def patAt : List (Char → Bool) → List Char → Bool
  | [], _ => true
  | _ :: _, [] => false
  | p :: ps, c :: cs => p c && patAt ps cs

/-- Does `p` hold of some suffix of the list (including the empty one)? -/
def someSuffix (p : List Char → Bool) : List Char → Bool
  | [] => p []
  | c :: cs => p (c :: cs) || someSuffix p cs

/-- Single-character equality test, for building patterns. -/
def chEq (a : Char) : Char → Bool := fun c => c = a

/-- Does `\sfeat\s|\sft\s` match at the head of the list? -/
def featAt (l : List Char) : Bool :=
  patAt [isWsChar, chEq 'f', chEq 'e', chEq 'a', chEq 't', isWsChar] l ||
  patAt [isWsChar, chEq 'f', chEq 't', isWsChar] l

/-- Does `\s&\s` match at the head of the list? -/
def ampAt (l : List Char) : Bool :=
  patAt [isWsChar, chEq '&', isWsChar] l

/-- The guard `$artistName -match '[,;]|\sfeat\s|\sft\s|\s&\s'`. -/
def multiArtistTrigger (s : String) : Bool :=
  s.data.any (fun c => c = ',' || c = ';') ||
  someSuffix featAt s.data || someSuffix ampAt s.data

/-- First segment of `-split '[,;&]'`: the characters before the first
comma, semicolon or ampersand. -/
def splitSepFirst (s : String) : String :=
  String.mk (s.data.takeWhile (fun c => !(c = ',' || c = ';' || c = '&')))

/-- Characters before the first (leftmost) match of `\sfeat\s|\sft\s`. -/
def beforeFeat : List Char → List Char
  | [] => []
  | c :: cs => if featAt (c :: cs) then [] else c :: beforeFeat cs

/-- First segment of `-split '\sfeat\s|\sft\s'`. -/
def splitFeatFirst (s : String) : String :=
  String.mk (beforeFeat s.data)

/-- The multi-artist block of the script: when the trigger regex matches,
split on `[,;&]`, keep the first segment and trim it, then split that on
`\sfeat\s|\sft\s`, keep the first segment and trim it. -/
def normalizeMultiArtist (s : String) : String :=
  if multiArtistTrigger s then
    psTrim (splitFeatFirst (psTrim (splitSepFirst s)))
  else s

/-- Result of matching a base name against `'^(.+?)\s*-\s*(.+)$'`:
`some (left, right)` holds the two raw captures.

The embedding follows .NET backtracking: the lazy `(.+?)` selects the first
hyphen that has at least one character before it and at least one after it;
the left capture is the prefix before that hyphen with its maximal trailing
whitespace removed (but at least one character), and the right capture is the
suffix after the hyphen with its maximal leading whitespace removed (but at
least one character). -/
def hyphenScan : List Char → List Char → Option (List Char × List Char)
  | _, [] => none
  | acc, c :: rest =>
    if c = '-' && !acc.isEmpty && !rest.isEmpty then some (acc.reverse, rest)
    else hyphenScan (c :: acc) rest

/-- The two captures of `'^(.+?)\s*-\s*(.+)$'` on a base name, or `none`
when the pattern does not match. -/
def baseNameSplit (s : String) : Option (String × String) :=
  match hyphenScan [] s.data with
  | none => none
  | some (pre, suf) =>
    let left := let l := dropTrail isWsChar pre; if l.isEmpty then pre.take 1 else l
    let right := let r := suf.dropWhile isWsChar; if r.isEmpty then suf.reverse.take 1 else r
    some (String.mk left, String.mk right)

/-- Tag metadata of one MP3 file, as returned by the shell property reads. -/
structure Tags where
  artist : String
  album : String
  title : String
  trackNumber : String
  albumArtist : String
deriving Repr, DecidableEq

/-- An MP3 file discovered in the source directory: its base name (name
without the `.mp3` extension) and the metadata the COM reader would return
for it (`none` models a reader failure, i.e. the `catch` in
`Get-Mp3Metadata`). -/
structure AudioFile where
  baseName : String
  rawTags : Option Tags
deriving Repr, DecidableEq

/-- `Get-Mp3Metadata`: on success every field is trimmed (absent properties
come back as empty strings); on reader failure the function returns null. -/
def getMp3Metadata (f : AudioFile) : Option Tags :=
  f.rawTags.map fun t =>
    { artist := psTrim t.artist
      album := psTrim t.album
      title := psTrim t.title
      trackNumber := psTrim t.trackNumber
      albumArtist := psTrim t.albumArtist }

/-- Artist resolution before multi-artist normalization: prefer a truthy
`AlbumArtist`, else `Artist`; if the chosen value is null-or-whitespace, the
base name is matched against `'^(.+?)\s*-\s*(.+)$'` and the trimmed first
capture is used, falling back to `"Unknown Artist"` when the pattern does
not match. -/
def resolveArtistPre (md : Tags) (baseName : String) : String :=
  let a := if psTruthy md.albumArtist then md.albumArtist else md.artist
  if isBlank a then
    match baseNameSplit baseName with
    | some (l, _) => psTrim l
    | none => "Unknown Artist"
  else a

/-- The script's full artist computation: priority resolution followed by
the multi-artist block. -/
def resolveArtist (md : Tags) (baseName : String) : String :=
  normalizeMultiArtist (resolveArtistPre md baseName)

/-- `$albumName = if ($metadata.Album) { $metadata.Album } else { "Unknown Album" }`. -/
def resolveAlbum (md : Tags) : String :=
  if psTruthy md.album then md.album else "Unknown Album"

/-- Title resolution: a truthy `Title` tag, else the trimmed second capture
of `'^.+?\s*-\s*(.+)$'` on the base name, else the base name itself. -/
def resolveTitle (md : Tags) (baseName : String) : String :=
  if psTruthy md.title then md.title
  else
    match baseNameSplit baseName with
    | some (_, r) => psTrim r
    | none => baseName

/-- The sanitized destination descriptor computed for one file. -/
structure Entry where
  artistName : String
  albumName : String
  trackNum : String
  trackTitle : String
deriving Repr, DecidableEq

/-- Per-file resolution: artist, album and title resolved then sanitized,
track number formatted. -/
def canonicalEntry (md : Tags) (baseName : String) : Entry :=
  { artistName := sanitizeName (resolveArtist md baseName)
    albumName := sanitizeName (resolveAlbum md)
    trackNum := formatTrackNumber md.trackNumber
    trackTitle := sanitizeName (resolveTitle md baseName) }

/-- `Join-Path`, abstracted as concatenation with a single separator. -/
def joinPath (a b : String) : String := a ++ "/" ++ b

/-- `$artistDir = Join-Path $targetDir $artistName`. -/
def artistDirOf (targetDir : String) (e : Entry) : String :=
  joinPath targetDir e.artistName

/-- `$albumDir = Join-Path $artistDir $albumName`. -/
def albumDirOf (targetDir : String) (e : Entry) : String :=
  joinPath (artistDirOf targetDir e) e.albumName

/-- `$targetPath = Join-Path $albumDir "$trackNum - $trackTitle.mp3"`. -/
def destPath (targetDir : String) (e : Entry) : String :=
  joinPath (albumDirOf targetDir e) (e.trackNum ++ " - " ++ e.trackTitle ++ ".mp3")

/-- The filesystem as two finite sets of paths. -/
structure FS where
  dirs : List String
  files : List String
deriving Repr, DecidableEq

/-- Script configuration: the two directories and the `$dryRun` flag. -/
structure Config where
  sourceDir : String
  targetDir : String
  dryRun : Bool
deriving Repr, DecidableEq

/-- Full path of a discovered source file. -/
def srcPath (cfg : Config) (f : AudioFile) : String :=
  joinPath cfg.sourceDir (f.baseName ++ ".mp3")

/-- Mutable run state: the filesystem plus the two counters. -/
structure RunState where
  fs : FS
  processedCount : Nat
  errorCount : Nat
deriving Repr, DecidableEq

/-- Outcome recorded for one file. -/
inductive Outcome where
  | moved (dest : String)
  | skippedExisting (dest : String)
  | previewedOnly (dest : String)
  | unreadableMetadata
  | moveFailed (dest : String)
deriving Repr, DecidableEq

/-- Is the outcome one of the two error cases counted by `$errorCount`? -/
def Outcome.isError : Outcome → Bool
  | .unreadableMetadata => true
  | .moveFailed _ => true
  | _ => false

/-- The body of the `foreach` loop for one file.  `moveOk` is the
environment oracle deciding whether `Move-Item` to a given destination
succeeds or throws. -/
def processFile (cfg : Config) (moveOk : String → Bool) (st : RunState)
    (f : AudioFile) : RunState × Outcome :=
  match getMp3Metadata f with
  | none => ({ st with errorCount := st.errorCount + 1 }, .unreadableMetadata)
  | some md =>
    let e := canonicalEntry md f.baseName
    let albumDir := albumDirOf cfg.targetDir e
    let tp := destPath cfg.targetDir e
    if cfg.dryRun then
      ({ st with processedCount := st.processedCount + 1 }, .previewedOnly tp)
    else
      let fs1 :=
        if st.fs.dirs.contains albumDir then st.fs
        else { st.fs with
                dirs := albumDir :: artistDirOf cfg.targetDir e :: st.fs.dirs }
      if fs1.files.contains tp then
        ({ st with fs := fs1 }, .skippedExisting tp)
      else if moveOk tp then
        ({ st with
            fs := { fs1 with files := tp :: fs1.files.erase (srcPath cfg f) }
            processedCount := st.processedCount + 1 }, .moved tp)
      else
        ({ st with fs := fs1, errorCount := st.errorCount + 1 }, .moveFailed tp)

/-- The `foreach` loop over all discovered files. -/
def runFiles (cfg : Config) (moveOk : String → Bool) :
    RunState → List AudioFile → RunState × List Outcome
  | st, [] => (st, [])
  | st, f :: fs =>
    let p := processFile cfg moveOk st f
    let r := runFiles cfg moveOk p.1 fs
    (r.1, p.2 :: r.2)

/-- The whole script: the target directory is created up front when absent
(before and regardless of the `$dryRun` check), then the loop runs with both
counters starting at zero. -/
def runScript (cfg : Config) (moveOk : String → Bool) (fs0 : FS)
    (files : List AudioFile) : RunState × List Outcome :=
  let fsInit :=
    if fs0.dirs.contains cfg.targetDir then fs0
    else { fs0 with dirs := cfg.targetDir :: fs0.dirs }
  runFiles cfg moveOk { fs := fsInit, processedCount := 0, errorCount := 0 } files

/-- Is the first list a leading segment of the second? -/
def leadsList : List Char → List Char → Bool
  | [], _ => true
  | _ :: _, [] => false
  | a :: as, b :: bs => a = b && leadsList as bs

/-- Does the path lie under the configured target directory? -/
def targetRooted (cfg : Config) (p : String) : Bool :=
  leadsList (cfg.targetDir ++ "/").data p.data

/-! ## Generic list and string lemmas -/

theorem strMk_data (s : String) : String.mk s.data = s := rfl

theorem data_strMk (l : List Char) : (String.mk l).data = l := rfl

theorem dropWhile_all {p : Char → Bool} {l : List Char}
    (h : ∀ c ∈ l, p c = true) : l.dropWhile p = [] :=
  List.dropWhile_eq_nil_iff.mpr h

theorem dropWhile_cons_head {p : Char → Bool} {a : Char} {l : List Char}
    (h : p a = false) : (a :: l).dropWhile p = a :: l := by
  simp [List.dropWhile_cons, h]

theorem head_false_of_dropWhile_fix {p : Char → Bool} {a : Char} {l : List Char}
    (h : (a :: l).dropWhile p = a :: l) : p a = false := by
  by_cases hp : p a = true
  · exfalso
    rw [List.dropWhile_cons, if_pos hp] at h
    have hle : (l.dropWhile p).length ≤ l.length :=
      (List.dropWhile_suffix p).sublist.length_le
    have := congrArg List.length h
    simp at this
    omega
  · exact Bool.eq_false_iff.mpr hp

theorem dropWhile_dropWhile (p : Char → Bool) (l : List Char) :
    (l.dropWhile p).dropWhile p = l.dropWhile p := by
  induction l with
  | nil => rfl
  | cons c cs ih =>
    by_cases h : p c = true
    · rw [List.dropWhile_cons, if_pos h]; exact ih
    · rw [dropWhile_cons_head (Bool.eq_false_iff.mpr h),
        dropWhile_cons_head (Bool.eq_false_iff.mpr h)]

theorem dropWhile_append_of_none {p : Char → Bool} {u v : List Char}
    (h : ∀ c ∈ u, p c = true) : (u ++ v).dropWhile p = v.dropWhile p := by
  induction u with
  | nil => rfl
  | cons c cs ih =>
    rw [List.cons_append, List.dropWhile_cons, if_pos (h c (by simp))]
    exact ih fun c hc => h c (by simp [hc])

theorem dropWhile_append_left {p : Char → Bool} {u v : List Char}
    (h : u.dropWhile p ≠ []) : (u ++ v).dropWhile p = u.dropWhile p ++ v := by
  induction u with
  | nil => exact absurd rfl h
  | cons c cs ih =>
    by_cases hp : p c = true
    · rw [List.dropWhile_cons, if_pos hp] at h
      rw [List.cons_append, List.dropWhile_cons, if_pos hp, ih h,
        List.dropWhile_cons, if_pos hp]
    · have hp' := Bool.eq_false_iff.mpr hp
      rw [List.cons_append, dropWhile_cons_head hp', dropWhile_cons_head hp',
        List.cons_append]

theorem takeWhile_append_of_all {p : Char → Bool} {u v : List Char}
    (h : ∀ c ∈ u, p c = true) : (u ++ v).takeWhile p = u ++ v.takeWhile p := by
  induction u with
  | nil => rfl
  | cons c cs ih =>
    rw [List.cons_append, List.takeWhile_cons, if_pos (h c (by simp)),
      ih fun c hc => h c (by simp [hc]), List.cons_append]

theorem takeWhile_stop {p : Char → Bool} {l : List Char}
    (h : ∀ c ∈ l.take 1, p c = false) : l.takeWhile p = [] := by
  cases l with
  | nil => rfl
  | cons c cs => rw [List.takeWhile_cons, if_neg (by simp [h c (by simp)])]

theorem dropTrail_leads (p : Char → Bool) (l : List Char) :
    dropTrail p l <+: l := by
  have h1 : l.reverse.dropWhile p <:+ l.reverse := List.dropWhile_suffix p
  have h2 : (l.reverse.dropWhile p).reverse <+: l.reverse.reverse := by
    exact List.reverse_prefix.mpr (by simpa using h1)
  simpa [dropTrail] using h2

theorem mem_dropTrail {p : Char → Bool} {c : Char} {l : List Char}
    (h : c ∈ dropTrail p l) : c ∈ l :=
  (dropTrail_leads p l).sublist.mem h

theorem mem_trimList {c : Char} {l : List Char} (h : c ∈ trimList l) : c ∈ l := by
  have h1 : c ∈ l.dropWhile isWsChar := mem_dropTrail h
  exact (List.dropWhile_suffix isWsChar).sublist.mem h1

theorem dropTrail_dropTrail (p : Char → Bool) (l : List Char) :
    dropTrail p (dropTrail p l) = dropTrail p l := by
  simp [dropTrail, dropWhile_dropWhile]

theorem dropWhile_fix_of_dropTrail {p : Char → Bool} {l : List Char}
    (h : l.dropWhile p = l) : (dropTrail p l).dropWhile p = dropTrail p l := by
  cases l with
  | nil =>
    have : dropTrail p ([] : List Char) = [] := rfl
    rw [this]; rfl
  | cons a t =>
    have ha : p a = false := head_false_of_dropWhile_fix h
    have hpre : dropTrail p (a :: t) <+: a :: t := dropTrail_leads p (a :: t)
    cases hd : dropTrail p (a :: t) with
    | nil => rfl
    | cons b t' =>
      rw [hd] at hpre
      obtain ⟨rest, hrest⟩ := hpre
      rw [List.cons_append] at hrest
      injection hrest with hb _
      subst hb
      exact dropWhile_cons_head ha

theorem trimList_trimList (l : List Char) : trimList (trimList l) = trimList l := by
  unfold trimList
  rw [dropWhile_fix_of_dropTrail (dropWhile_dropWhile isWsChar l),
    dropTrail_dropTrail]

theorem psTrim_psTrim (s : String) : psTrim (psTrim s) = psTrim s := by
  simp [psTrim, data_strMk, trimList_trimList]

theorem psTrim_of_blank {s : String} (h : isBlank s = true) : psTrim s = "" := by
  simp only [isBlank, List.all_eq_true] at h
  simp [psTrim, trimList, dropWhile_all h, dropTrail]

theorem not_blank_of_truthy_fix {s : String} (hf : psTrim s = s)
    (ht : psTruthy s = true) : isBlank s = false := by
  by_cases hb : isBlank s = true
  · rw [psTrim_of_blank hb] at hf
    rw [← hf] at ht
    simp [psTruthy] at ht
  · exact Bool.eq_false_iff.mpr hb

/-! ## Digits and decimal rendering -/

theorem digit_not_ws {c : Char} (h : isDigitCh c = true) : isWsChar c = false := by
  simp only [isDigitCh, Bool.and_eq_true, decide_eq_true_eq] at h
  simp only [isWsChar, Bool.or_eq_false_iff, Bool.and_eq_false_iff,
    decide_eq_false_iff_not]
  constructor
  · intro he
    subst he
    have h32 : (' ' : Char).toNat = 32 := rfl
    omega
  · omega

theorem natDigitsAux_congr : ∀ {f1 f2 n : Nat}, n < f1 → n < f2 →
    natDigitsAux f1 n = natDigitsAux f2 n := by
  intro f1
  induction f1 with
  | zero => intro f2 n h1 _; omega
  | succ f1' ih =>
    intro f2 n h1 h2
    cases f2 with
    | zero => omega
    | succ f2' =>
      by_cases h10 : n < 10
      · simp [natDigitsAux, h10]
      · have hdiv : n / 10 < n := Nat.div_lt_self (by omega) (by omega)
        show natDigitsAux (f1' + 1) n = natDigitsAux (f2' + 1) n
        simp only [natDigitsAux, if_neg h10]
        congr 1
        exact ih (by omega) (by omega)

theorem natDigits_len1 (n : Nat) : 1 ≤ (natDigits n).length := by
  by_cases h10 : n < 10
  · simp [natDigits, natDigitsAux, h10]
  · simp [natDigits, natDigitsAux, h10]

theorem natDigits_len2 {n : Nat} (h : 10 ≤ n) : 2 ≤ (natDigits n).length := by
  have h10 : ¬ n < 10 := by omega
  have hdiv : n / 10 < n := Nat.div_lt_self (by omega) (by omega)
  have hc : natDigitsAux n (n / 10) = natDigits (n / 10) :=
    natDigitsAux_congr hdiv (Nat.lt_succ_self _)
  have h1 : 1 ≤ (natDigits (n / 10)).length := natDigits_len1 _
  show 2 ≤ (natDigitsAux (n + 1) n).length
  simp only [natDigitsAux, if_neg h10, hc, List.length_append,
    List.length_cons, List.length_nil]
  omega

theorem pad2_length (n : Nat) : 2 ≤ (pad2 n).length := by
  unfold pad2
  split
  · rfl
  · rw [String.length_mk]
    exact natDigits_len2 (by omega)

/-- Characterization of `Format-TrackNumber` on a string decomposed around
its first maximal digit run. -/
theorem formatTrackNumber_run {u v w : List Char}
    (hu : ∀ c ∈ u, isDigitCh c = false) (hv : v ≠ [])
    (hv' : ∀ c ∈ v, isDigitCh c = true)
    (hw : ∀ c ∈ w.take 1, isDigitCh c = false) :
    formatTrackNumber (String.mk (u ++ v ++ w)) = pad2 (natOfDigits v) := by
  cases v with
  | nil => exact absurd rfl hv
  | cons vh vt =>
    have hvh : isDigitCh vh = true := hv' vh (by simp)
    have hblank : isBlank (String.mk (u ++ (vh :: vt) ++ w)) = false := by
      apply Bool.eq_false_iff.mpr
      intro hall
      simp only [isBlank, data_strMk, List.all_eq_true] at hall
      have hm := hall vh (by simp)
      rw [digit_not_ws hvh] at hm
      exact Bool.false_ne_true hm
    have hdrop : (u ++ (vh :: vt) ++ w).dropWhile (fun c => !isDigitCh c) =
        vh :: (vt ++ w) := by
      rw [List.append_assoc,
        dropWhile_append_of_none (fun c hc => by simp [hu c hc])]
      exact dropWhile_cons_head (by simp [hvh])
    have htake : (vh :: (vt ++ w)).takeWhile isDigitCh = vh :: vt := by
      have : ((vh :: vt) ++ w).takeWhile isDigitCh =
          (vh :: vt) ++ w.takeWhile isDigitCh := takeWhile_append_of_all hv'
      rw [List.cons_append] at this
      rw [this, takeWhile_stop hw, List.append_nil]
    simp only [formatTrackNumber, data_strMk, hblank, Bool.false_eq_true,
      if_false, hdrop, htake]

/-! ## Run-loop lemmas -/

theorem runFiles_cons (cfg : Config) (mo : String → Bool) (st : RunState)
    (f : AudioFile) (fs : List AudioFile) :
    runFiles cfg mo st (f :: fs) =
      ((runFiles cfg mo (processFile cfg mo st f).1 fs).1,
       (processFile cfg mo st f).2 ::
         (runFiles cfg mo (processFile cfg mo st f).1 fs).2) := rfl

theorem runFiles_length (cfg : Config) (mo : String → Bool) :
    ∀ (files : List AudioFile) (st : RunState),
      (runFiles cfg mo st files).2.length = files.length := by
  intro files
  induction files with
  | nil => intro st; rfl
  | cons f fs ih => intro st; rw [runFiles_cons]; simp [ih]

theorem processFile_unreadable {cfg : Config} {mo : String → Bool}
    {st : RunState} {f : AudioFile} (h : getMp3Metadata f = none) :
    processFile cfg mo st f =
      ({ st with errorCount := st.errorCount + 1 }, .unreadableMetadata) := by
  simp [processFile, h]

theorem processFile_dryRun {cfg : Config} {mo : String → Bool}
    {st : RunState} {f : AudioFile} {md : Tags} (hdry : cfg.dryRun = true)
    (h : getMp3Metadata f = some md) :
    processFile cfg mo st f =
      ({ st with processedCount := st.processedCount + 1 },
       .previewedOnly (destPath cfg.targetDir (canonicalEntry md f.baseName))) := by
  simp [processFile, h, hdry]

theorem processFile_skip {cfg : Config} {mo : String → Bool}
    {st : RunState} {f : AudioFile} {md : Tags} (hdry : cfg.dryRun = false)
    (h : getMp3Metadata f = some md)
    (hex : destPath cfg.targetDir (canonicalEntry md f.baseName) ∈ st.fs.files) :
    (processFile cfg mo st f).2 =
      .skippedExisting (destPath cfg.targetDir (canonicalEntry md f.baseName)) ∧
    (processFile cfg mo st f).1.fs.files = st.fs.files ∧
    (processFile cfg mo st f).1.processedCount = st.processedCount ∧
    (processFile cfg mo st f).1.errorCount = st.errorCount := by
  have hex' := List.elem_iff.mpr hex
  simp only [processFile, h, hdry, Bool.false_eq_true, if_false]
  split <;> simp [hex']

theorem processFile_moveFailed {cfg : Config} {mo : String → Bool}
    {st : RunState} {f : AudioFile} {md : Tags} (hdry : cfg.dryRun = false)
    (h : getMp3Metadata f = some md)
    (hnex : destPath cfg.targetDir (canonicalEntry md f.baseName) ∉ st.fs.files)
    (hmo : mo (destPath cfg.targetDir (canonicalEntry md f.baseName)) = false) :
    (processFile cfg mo st f).2 =
      .moveFailed (destPath cfg.targetDir (canonicalEntry md f.baseName)) ∧
    (processFile cfg mo st f).1.fs.files = st.fs.files ∧
    (processFile cfg mo st f).1.errorCount = st.errorCount + 1 ∧
    (processFile cfg mo st f).1.processedCount = st.processedCount := by
  simp only [processFile, h, hdry, Bool.false_eq_true, if_false]
  split <;> simp [hnex, hmo]

theorem processFile_errorCount (cfg : Config) (mo : String → Bool)
    (st : RunState) (f : AudioFile) :
    (processFile cfg mo st f).1.errorCount =
      st.errorCount + (if (processFile cfg mo st f).2.isError then 1 else 0) := by
  unfold processFile
  cases h : getMp3Metadata f with
  | none => simp [Outcome.isError]
  | some md =>
    by_cases hdry : cfg.dryRun = true
    · simp [hdry, Outcome.isError]
    · simp only [Bool.not_eq_true] at hdry
      simp only [hdry, Bool.false_eq_true, if_false]
      split <;> split <;> try split
      all_goals simp_all [Outcome.isError]

theorem runFiles_errorCount (cfg : Config) (mo : String → Bool) :
    ∀ (files : List AudioFile) (st : RunState),
      (runFiles cfg mo st files).1.errorCount =
        st.errorCount +
          ((runFiles cfg mo st files).2.filter Outcome.isError).length := by
  intro files
  induction files with
  | nil => intro st; simp [runFiles]
  | cons f fs ih =>
    intro st
    rw [runFiles_cons]
    have h1 := processFile_errorCount cfg mo st f
    have h2 := ih (processFile cfg mo st f).1
    by_cases he : (processFile cfg mo st f).2.isError = true
    · simp only [List.filter_cons, he, if_pos, List.length_cons]
      simp only [he, if_pos] at h1
      omega
    · simp only [Bool.not_eq_true] at he
      simp only [List.filter_cons, he, Bool.false_eq_true, if_false]
      simp only [he, Bool.false_eq_true, if_false] at h1
      omega

theorem processFile_dryRun_fs {cfg : Config} (mo : String → Bool)
    (st : RunState) (f : AudioFile) (h : cfg.dryRun = true) :
    (processFile cfg mo st f).1.fs = st.fs := by
  unfold processFile
  cases hm : getMp3Metadata f with
  | none => rfl
  | some md => simp [h]

theorem runFiles_dryRun_fs {cfg : Config} (mo : String → Bool)
    (h : cfg.dryRun = true) :
    ∀ (files : List AudioFile) (st : RunState),
      (runFiles cfg mo st files).1.fs = st.fs := by
  intro files
  induction files with
  | nil => intro st; rfl
  | cons f fs ih =>
    intro st
    rw [runFiles_cons]
    simp only
    rw [ih, processFile_dryRun_fs mo st f h]

/-! ## Lemmas about path rootedness and filesystem evolution -/

theorem leadsList_append (l m : List Char) : leadsList l (l ++ m) = true := by
  induction l with
  | nil => rfl
  | cons c cs ih => simp [leadsList, ih]

theorem destPath_rooted (cfg : Config) (e : Entry) :
    targetRooted cfg (destPath cfg.targetDir e) = true := by
  have h : (destPath cfg.targetDir e).data =
      (cfg.targetDir ++ "/").data ++
        (e.artistName ++ "/" ++ e.albumName ++ "/" ++
          (e.trackNum ++ " - " ++ e.trackTitle ++ ".mp3")).data := by
    simp [destPath, albumDirOf, artistDirOf, joinPath, String.data_append,
      List.append_assoc]
  unfold targetRooted
  rw [h]
  exact leadsList_append _ _

theorem src_ne_dest {cfg : Config} {f : AudioFile} {e : Entry}
    (h : targetRooted cfg (srcPath cfg f) = false) :
    srcPath cfg f ≠ destPath cfg.targetDir e := by
  intro he
  rw [he, destPath_rooted] at h
  simp at h

theorem processFile_dirs_mono {cfg : Config} {mo : String → Bool}
    {st : RunState} {f : AudioFile} {d : String}
    (h : d ∈ st.fs.dirs) : d ∈ (processFile cfg mo st f).1.fs.dirs := by
  unfold processFile
  cases hm : getMp3Metadata f with
  | none => simpa using h
  | some md =>
    by_cases hdry : cfg.dryRun = true
    · simp only [hdry, if_true]
      simpa using h
    · simp only [Bool.not_eq_true] at hdry
      simp only [hdry, Bool.false_eq_true, if_false]
      split <;> split <;> try split
      all_goals simp [h]

theorem processFile_files_keep {cfg : Config} {mo : String → Bool}
    {st : RunState} {f : AudioFile} {p : String}
    (hroot : targetRooted cfg p = true)
    (hsrc : targetRooted cfg (srcPath cfg f) = false)
    (hp : p ∈ st.fs.files) : p ∈ (processFile cfg mo st f).1.fs.files := by
  have hne : p ≠ srcPath cfg f := by
    intro he
    rw [← he, hroot] at hsrc
    simp at hsrc
  unfold processFile
  cases hm : getMp3Metadata f with
  | none => simpa using hp
  | some md =>
    by_cases hdry : cfg.dryRun = true
    · simp only [hdry, if_true]
      simpa using hp
    · simp only [Bool.not_eq_true] at hdry
      simp only [hdry, Bool.false_eq_true, if_false]
      split <;> split <;> try split
      all_goals simp [hp]
      all_goals exact Or.inr ((List.mem_erase_of_ne hne).mpr hp)

theorem processFile_albumDir_in {cfg : Config} {mo : String → Bool}
    {st : RunState} {f : AudioFile} {md : Tags}
    (hdry : cfg.dryRun = false) (h : getMp3Metadata f = some md) :
    albumDirOf cfg.targetDir (canonicalEntry md f.baseName) ∈
      (processFile cfg mo st f).1.fs.dirs := by
  unfold processFile
  rw [h]
  simp only [hdry, Bool.false_eq_true, if_false]
  split
  · rename_i hc
    split <;> try split
    all_goals simpa using List.elem_iff.mp hc
  · split <;> try split
    all_goals simp

theorem processFile_dest_in {cfg : Config} {mo : String → Bool}
    {st : RunState} {f : AudioFile} {md : Tags}
    (hdry : cfg.dryRun = false) (h : getMp3Metadata f = some md)
    (hmo : mo (destPath cfg.targetDir (canonicalEntry md f.baseName)) = true) :
    destPath cfg.targetDir (canonicalEntry md f.baseName) ∈
      (processFile cfg mo st f).1.fs.files := by
  unfold processFile
  rw [h]
  simp only [hdry, Bool.false_eq_true, if_false]
  split <;> split <;> try split
  all_goals simp_all

theorem runFiles_dirs_mono {cfg : Config} {mo : String → Bool} :
    ∀ (files : List AudioFile) (st : RunState) (d : String),
      d ∈ st.fs.dirs → d ∈ (runFiles cfg mo st files).1.fs.dirs := by
  intro files
  induction files with
  | nil => intro st d h; exact h
  | cons f fs ih =>
    intro st d h
    rw [runFiles_cons]
    exact ih _ _ (processFile_dirs_mono h)

theorem runFiles_files_keep {cfg : Config} {mo : String → Bool} :
    ∀ (files : List AudioFile) (st : RunState) (p : String),
      targetRooted cfg p = true →
      (∀ g ∈ files, targetRooted cfg (srcPath cfg g) = false) →
      p ∈ st.fs.files → p ∈ (runFiles cfg mo st files).1.fs.files := by
  intro files
  induction files with
  | nil => intro st p _ _ h; exact h
  | cons f fs ih =>
    intro st p hroot hsep h
    rw [runFiles_cons]
    exact ih _ _ hroot (fun g hg => hsep g (by simp [hg]))
      (processFile_files_keep hroot (hsep f (by simp)) h)

/-- After a live run, every readable file's album directory exists, and
whenever the move oracle lets its destination be created, the destination
file exists. -/
theorem runFiles_post {cfg : Config} {mo : String → Bool}
    (hdry : cfg.dryRun = false) :
    ∀ (files : List AudioFile) (st : RunState),
      (∀ g ∈ files, targetRooted cfg (srcPath cfg g) = false) →
      ∀ f ∈ files, ∀ md, getMp3Metadata f = some md →
        albumDirOf cfg.targetDir (canonicalEntry md f.baseName) ∈
          (runFiles cfg mo st files).1.fs.dirs ∧
        (mo (destPath cfg.targetDir (canonicalEntry md f.baseName)) = true →
          destPath cfg.targetDir (canonicalEntry md f.baseName) ∈
            (runFiles cfg mo st files).1.fs.files) := by
  intro files
  induction files with
  | nil => intro st _ f hf; exact absurd hf (List.not_mem_nil f)
  | cons f₀ fs ih =>
    intro st hsep f hf md hmd
    rw [runFiles_cons]
    rcases List.mem_cons.mp hf with he | ht
    · subst he
      constructor
      · exact runFiles_dirs_mono _ _ _ (processFile_albumDir_in hdry hmd)
      · intro hmo
        exact runFiles_files_keep _ _ _ (destPath_rooted cfg _)
          (fun g hg => hsep g (by simp [hg]))
          (processFile_dest_in hdry hmd hmo)
    · exact ih _ (fun g hg => hsep g (by simp [hg])) f ht md hmd

/-- The per-file step leaves the filesystem unchanged when the album
directory already exists and the destination either already exists or the
move would fail anyway. -/
theorem processFile_stationary {cfg : Config} {mo : String → Bool}
    {st : RunState} {f : AudioFile}
    (hdry : cfg.dryRun = false)
    (h : ∀ md, getMp3Metadata f = some md →
      albumDirOf cfg.targetDir (canonicalEntry md f.baseName) ∈ st.fs.dirs ∧
      (destPath cfg.targetDir (canonicalEntry md f.baseName) ∈ st.fs.files ∨
       mo (destPath cfg.targetDir (canonicalEntry md f.baseName)) = false)) :
    (processFile cfg mo st f).1.fs = st.fs := by
  unfold processFile
  cases hm : getMp3Metadata f with
  | none => rfl
  | some md =>
    obtain ⟨halb, hdest⟩ := h md hm
    have halb' : st.fs.dirs.contains
        (albumDirOf cfg.targetDir (canonicalEntry md f.baseName)) = true :=
      List.elem_iff.mpr halb
    simp only [hdry, Bool.false_eq_true, if_false, halb', if_true]
    rcases hdest with hin | hfail
    · simp [hin]
    · split
      · rfl
      · simp [hfail]

/-- The outcome and resulting filesystem of the per-file step depend only on
the filesystem component of the state, not on the counters. -/
theorem processFile_fs_only {cfg : Config} {mo : String → Bool}
    {f : AudioFile} {st st' : RunState} (h : st.fs = st'.fs) :
    (processFile cfg mo st f).2 = (processFile cfg mo st' f).2 := by
  unfold processFile
  cases hm : getMp3Metadata f with
  | none => rfl
  | some md =>
    by_cases hdry : cfg.dryRun = true
    · simp [hdry]
    · simp only [Bool.not_eq_true] at hdry
      simp only [hdry, Bool.false_eq_true, if_false, h, apply_ite Prod.snd]

/-- A run over files whose destinations are all settled (directory present,
destination present or move doomed) leaves the filesystem unchanged and
gives each file the outcome it would get from the initial state. -/
theorem runFiles_stationary {cfg : Config} {mo : String → Bool}
    (hdry : cfg.dryRun = false) :
    ∀ (files : List AudioFile) (st : RunState),
      (∀ f ∈ files, ∀ md, getMp3Metadata f = some md →
        albumDirOf cfg.targetDir (canonicalEntry md f.baseName) ∈ st.fs.dirs ∧
        (destPath cfg.targetDir (canonicalEntry md f.baseName) ∈ st.fs.files ∨
         mo (destPath cfg.targetDir (canonicalEntry md f.baseName)) = false)) →
      (runFiles cfg mo st files).1.fs = st.fs ∧
      (runFiles cfg mo st files).2 =
        files.map (fun f => (processFile cfg mo st f).2) := by
  intro files
  induction files with
  | nil => intro st _; exact ⟨rfl, rfl⟩
  | cons f₀ fs ih =>
    intro st hset
    have hstat : (processFile cfg mo st f₀).1.fs = st.fs :=
      processFile_stationary hdry (hset f₀ (by simp))
    have hset' : ∀ f ∈ fs, ∀ md, getMp3Metadata f = some md →
        albumDirOf cfg.targetDir (canonicalEntry md f.baseName) ∈
          (processFile cfg mo st f₀).1.fs.dirs ∧
        (destPath cfg.targetDir (canonicalEntry md f.baseName) ∈
          (processFile cfg mo st f₀).1.fs.files ∨
         mo (destPath cfg.targetDir (canonicalEntry md f.baseName)) = false) := by
      rw [hstat]
      exact fun f hf => hset f (by simp [hf])
    obtain ⟨ihfs, ihout⟩ := ih (processFile cfg mo st f₀).1 hset'
    rw [runFiles_cons]
    refine ⟨by rw [ihfs, hstat], ?_⟩
    simp only [List.map_cons]
    refine congrArg _ ?_
    rw [ihout]
    exact List.map_eq_map_iff.mpr fun f _ => processFile_fs_only hstat

/-! ## Multi-artist normalization lemmas -/

theorem dropWhile_none {p : Char → Bool} {l : List Char}
    (h : ∀ c ∈ l, p c = false) : l.dropWhile p = l := by
  cases l with
  | nil => rfl
  | cons c cs => exact dropWhile_cons_head (h c (by simp))

theorem dropTrail_none {p : Char → Bool} {l : List Char}
    (h : ∀ c ∈ l, p c = false) : dropTrail p l = l := by
  unfold dropTrail
  rw [dropWhile_none (fun c hc => h c (List.mem_reverse.mp hc)), List.reverse_reverse]

theorem trimList_none {l : List Char}
    (h : ∀ c ∈ l, isWsChar c = false) : trimList l = l := by
  unfold trimList
  rw [dropWhile_none h, dropTrail_none h]

theorem dropTrail_cons_neg {p : Char → Bool} {c : Char} {cs : List Char}
    (h : p c = false) : dropTrail p (c :: cs) = c :: dropTrail p cs := by
  unfold dropTrail
  rw [List.reverse_cons]
  by_cases hd : cs.reverse.dropWhile p = []
  · rw [dropWhile_append_of_none, hd]
    · simp [dropWhile_cons_head h]
    · intro x hx
      by_cases hp : p x = true
      · exact hp
      · exfalso
        have : cs.reverse.dropWhile p ≠ [] := by
          intro he
          rw [List.dropWhile_eq_nil_iff] at he
          exact absurd (he x hx) (by simp [hp])
        exact this hd
  · rw [dropWhile_append_left hd]
    simp

theorem dropTrail_append_right {p : Char → Bool} {u v : List Char}
    (h : dropTrail p v ≠ []) : dropTrail p (u ++ v) = u ++ dropTrail p v := by
  unfold dropTrail at *
  have hv : v.reverse.dropWhile p ≠ [] := by
    intro he
    rw [he] at h
    exact h rfl
  rw [List.reverse_append, dropWhile_append_left hv, List.reverse_append,
    List.reverse_reverse]

theorem featAt_false_of_head {c : Char} {cs : List Char}
    (h : isWsChar c = false) : featAt (c :: cs) = false := by
  simp [featAt, patAt, h]

theorem ampAt_false_of_head {c : Char} {cs : List Char}
    (h : isWsChar c = false) : ampAt (c :: cs) = false := by
  simp [ampAt, patAt, h]

theorem someSuffix_nows {pat : List Char → Bool}
    (hnil : pat [] = false)
    (hhead : ∀ c cs, isWsChar c = false → pat (c :: cs) = false) :
    ∀ l : List Char, (∀ c ∈ l, isWsChar c = false) → someSuffix pat l = false := by
  intro l
  induction l with
  | nil => intro _; exact hnil
  | cons c cs ih =>
    intro h
    simp only [someSuffix]
    rw [hhead c cs (h c (by simp)), ih (fun x hx => h x (by simp [hx]))]
    rfl

theorem someSuffix_append_right {pat : List Char → Bool} {y : List Char}
    (x : List Char) (h : someSuffix pat y = true) :
    someSuffix pat (x ++ y) = true := by
  induction x with
  | nil => exact h
  | cons c cs ih =>
    simp only [List.cons_append, someSuffix]
    rw [show cs.append y = cs ++ y from rfl, ih, Bool.or_true]

theorem beforeFeat_nows {l : List Char}
    (h : ∀ c ∈ l, isWsChar c = false) : beforeFeat l = l := by
  induction l with
  | nil => rfl
  | cons c cs ih =>
    unfold beforeFeat
    rw [if_neg (by simp [featAt_false_of_head (h c (by simp))]),
      ih (fun x hx => h x (by simp [hx]))]

theorem beforeFeat_append_stop {x y : List Char}
    (hx : ∀ c ∈ x, isWsChar c = false) (hy : featAt y = true) :
    beforeFeat (x ++ y) = x := by
  induction x with
  | nil =>
    cases y with
    | nil => simp [featAt, patAt] at hy
    | cons c cs =>
      show beforeFeat (c :: cs) = []
      unfold beforeFeat
      rw [if_pos hy]
  | cons c cs ih =>
    rw [List.cons_append]
    unfold beforeFeat
    rw [if_neg (by simp [featAt_false_of_head (hx c (by simp))]),
      ih (fun a ha => hx a (by simp [ha]))]

theorem trigger_false_plain {s : String}
    (hws : ∀ c ∈ s.data, isWsChar c = false)
    (hsep : ∀ c ∈ s.data, (c = ',' || c = ';') = false) :
    multiArtistTrigger s = false := by
  unfold multiArtistTrigger
  rw [someSuffix_nows rfl (fun c cs h => featAt_false_of_head h) s.data hws,
    someSuffix_nows rfl (fun c cs h => ampAt_false_of_head h) s.data hws]
  have hany : s.data.any (fun c => c = ',' || c = ';') = false := by
    rw [List.any_eq_false]
    intro c hc
    simp [hsep c hc]
  rw [hany]
  rfl

theorem normalizeMultiArtist_plain {s : String}
    (hws : ∀ c ∈ s.data, isWsChar c = false)
    (hsep : ∀ c ∈ s.data, (c = ',' || c = ';') = false) :
    normalizeMultiArtist s = s := by
  unfold normalizeMultiArtist
  rw [trigger_false_plain hws hsep]
  rfl

theorem trimList_nows_wsTail {l w : List Char}
    (hl : ∀ c ∈ l, isWsChar c = false) (hw : ∀ c ∈ w, isWsChar c = true) :
    trimList (l ++ w) = l := by
  cases l with
  | nil =>
    simp only [List.nil_append]
    unfold trimList
    rw [dropWhile_all hw]
    rfl
  | cons c cs =>
    unfold trimList
    rw [List.cons_append, dropWhile_cons_head (hl c (by simp))]
    unfold dropTrail
    have h1 : (c :: (cs ++ w)).reverse = w.reverse ++ (cs.reverse ++ [c]) := by
      simp [List.reverse_append, List.append_assoc]
    rw [h1, dropWhile_append_of_none (fun x hx => hw x (List.mem_reverse.mp hx)),
      dropWhile_none (fun x hx => ?_), List.reverse_append, List.reverse_reverse,
      List.reverse_cons, List.reverse_nil, List.nil_append, List.singleton_append]
    rcases List.mem_append.mp hx with h | h
    · exact hl x (by simp [List.mem_reverse.mp h])
    · simp only [List.mem_singleton] at h
      exact hl x (by simp [h])

theorem someSuffix_of_self {pat : List Char → Bool} {l : List Char}
    (h : pat l = true) : someSuffix pat l = true := by
  cases l with
  | nil => exact h
  | cons c cs => simp [someSuffix, h]

/-- The shared computation behind the `feat`/`ft` truncation: a clean
artist `a` followed by a whitespace-delimited token and a remainder whose
first character is neither whitespace nor a separator collapses to `a`. -/
theorem normalize_tok {a b : String} {tok : List Char}
    (ha : a.data ≠ [])
    (haws : ∀ c ∈ a.data, isWsChar c = false)
    (hasep : ∀ c ∈ a.data, (c = ',' || c = ';' || c = '&') = false)
    (hb : b.data ≠ [])
    (hbh : ∀ c ∈ b.data.take 1,
      isWsChar c = false ∧ (c = ',' || c = ';' || c = '&') = false)
    (htok : ∀ rest : List Char, featAt (tok ++ rest) = true)
    (htoksep : ∀ c ∈ tok, (c = ',' || c = ';' || c = '&') = false) :
    normalizeMultiArtist (a ++ String.mk tok ++ b) = a := by
  have hdata : (a ++ String.mk tok ++ b).data = a.data ++ (tok ++ b.data) := by
    simp [String.data_append, List.append_assoc]
  obtain ⟨ah, as, hae⟩ : ∃ ah as, a.data = ah :: as := by
    cases hc : a.data with
    | nil => exact absurd hc ha
    | cons x xs => exact ⟨x, xs, rfl⟩
  obtain ⟨bh, bt, hbe⟩ : ∃ bh bt, b.data = bh :: bt := by
    cases hc : b.data with
    | nil => exact absurd hc hb
    | cons x xs => exact ⟨x, xs, rfl⟩
  have hbh' := hbh bh (by simp [hbe])
  -- the trigger fires thanks to the token
  have htrig : multiArtistTrigger (a ++ String.mk tok ++ b) = true := by
    unfold multiArtistTrigger
    rw [hdata, someSuffix_append_right a.data (someSuffix_of_self (htok b.data))]
    simp
  -- first split: `takeWhile` passes `a`, the token, and the head of `b`
  have hq : ∀ c ∈ a.data, (fun c => !(c = ',' || c = ';' || c = '&')) c = true := by
    intro c hc; simp [hasep c hc]
  have hqtok : ∀ c ∈ tok, (fun c => !(c = ',' || c = ';' || c = '&')) c = true := by
    intro c hc; simp [htoksep c hc]
  have hsplit1 : splitSepFirst (a ++ String.mk tok ++ b) =
      String.mk (a.data ++ (tok ++ b.data.takeWhile
        (fun c => !(c = ',' || c = ';' || c = '&')))) := by
    unfold splitSepFirst
    rw [hdata, takeWhile_append_of_all hq, takeWhile_append_of_all hqtok]
  -- the head of `b` survives the `takeWhile`
  have hbq : b.data.takeWhile (fun c => !(c = ',' || c = ';' || c = '&')) =
      bh :: bt.takeWhile (fun c => !(c = ',' || c = ';' || c = '&')) := by
    rw [hbe, List.takeWhile_cons, if_pos (by simp [hbh'.2])]
  -- trimming strips nothing in front and keeps the head of `b` at the back
  have hz : dropTrail isWsChar
      (bh :: bt.takeWhile (fun c => !(c = ',' || c = ';' || c = '&'))) =
      bh :: dropTrail isWsChar
        (bt.takeWhile (fun c => !(c = ',' || c = ';' || c = '&'))) :=
    dropTrail_cons_neg hbh'.1
  have htrim1 : psTrim (String.mk (a.data ++ (tok ++ b.data.takeWhile
      (fun c => !(c = ',' || c = ';' || c = '&'))))) =
      String.mk (a.data ++ (tok ++ (bh :: dropTrail isWsChar
        (bt.takeWhile (fun c => !(c = ',' || c = ';' || c = '&')))))) := by
    unfold psTrim
    rw [data_strMk]
    unfold trimList
    rw [hbq, hae, List.cons_append,
      dropWhile_cons_head (haws ah (by simp [hae])), ← List.cons_append,
      ← hae, ← List.append_assoc, dropTrail_append_right (by rw [hz]; simp),
      hz, List.append_assoc]
  -- the token stops the second split right after `a`
  have hsplit2 : splitFeatFirst (String.mk (a.data ++ (tok ++ (bh :: dropTrail isWsChar
      (bt.takeWhile (fun c => !(c = ',' || c = ';' || c = '&'))))))) =
      String.mk a.data := by
    unfold splitFeatFirst
    rw [data_strMk, beforeFeat_append_stop haws (htok _)]
  have htrima : psTrim (String.mk a.data) = String.mk a.data := by
    unfold psTrim
    rw [data_strMk, trimList_none haws]
  unfold normalizeMultiArtist
  rw [htrig, if_pos rfl, hsplit1, htrim1, hsplit2, htrima, strMk_data]

theorem normalize_sepChar {a b : String} (e : Char)
    (he : (e = ',' || e = ';') = true)
    (ha : a.data ≠ [])
    (haws : ∀ c ∈ a.data, isWsChar c = false)
    (hasep : ∀ c ∈ a.data, (c = ',' || c = ';' || c = '&') = false) :
    normalizeMultiArtist (a ++ String.mk [e] ++ b) = a := by
  have hdata : (a ++ String.mk [e] ++ b).data = a.data ++ (e :: b.data) := by
    rw [String.data_append, String.data_append, data_strMk, List.append_assoc,
      List.singleton_append]
  have he' : e = ',' ∨ e = ';' := by simpa using he
  have htrig : multiArtistTrigger (a ++ String.mk [e] ++ b) = true := by
    unfold multiArtistTrigger
    rw [hdata]
    have hany : (a.data ++ (e :: b.data)).any (fun c => c = ',' || c = ';') = true :=
      List.any_eq_true.mpr ⟨e, by simp, by simpa using he⟩
    rw [hany]
    rfl
  have hq : ∀ c ∈ a.data, (fun c => !(c = ',' || c = ';' || c = '&')) c = true := by
    intro c hc; simp [hasep c hc]
  have hsplit : splitSepFirst (a ++ String.mk [e] ++ b) = String.mk a.data := by
    unfold splitSepFirst
    rw [hdata, takeWhile_append_of_all hq, takeWhile_stop (by
      intro c hc
      simp only [List.take_succ_cons, List.take_zero, List.mem_singleton] at hc
      subst hc
      rcases he' with h | h <;> subst h <;> rfl), List.append_nil]
  have htrima : psTrim (String.mk a.data) = String.mk a.data := by
    unfold psTrim
    rw [data_strMk, trimList_none haws]
  have hsplit2 : splitFeatFirst (String.mk a.data) = String.mk a.data := by
    unfold splitFeatFirst
    rw [data_strMk, beforeFeat_nows haws]
  unfold normalizeMultiArtist
  rw [htrig, if_pos rfl, hsplit, htrima, hsplit2, htrima, strMk_data]

theorem normalize_amp {a b : String}
    (ha : a.data ≠ [])
    (haws : ∀ c ∈ a.data, isWsChar c = false)
    (hasep : ∀ c ∈ a.data, (c = ',' || c = ';' || c = '&') = false) :
    normalizeMultiArtist (a ++ " & " ++ b) = a := by
  have hlit : (" & " : String).data = [' ', '&', ' '] := rfl
  have hdata : (a ++ " & " ++ b).data = a.data ++ ([' ', '&', ' '] ++ b.data) := by
    rw [String.data_append, String.data_append, hlit, List.append_assoc]
  have hamp : ampAt ([' ', '&', ' '] ++ b.data) = true := by
    show ampAt (' ' :: '&' :: ' ' :: b.data) = true
    simp [ampAt, patAt, isWsChar, chEq]
  have htrig : multiArtistTrigger (a ++ " & " ++ b) = true := by
    unfold multiArtistTrigger
    rw [hdata, someSuffix_append_right a.data (someSuffix_of_self hamp)]
    simp
  have hq : ∀ c ∈ a.data, (fun c => !(c = ',' || c = ';' || c = '&')) c = true := by
    intro c hc; simp [hasep c hc]
  have hsplit : splitSepFirst (a ++ " & " ++ b) = String.mk (a.data ++ [' ']) := by
    unfold splitSepFirst
    rw [hdata, takeWhile_append_of_all hq]
    have htw : List.takeWhile (fun c => !(c = ',' || c = ';' || c = '&'))
        ([' ', '&', ' '] ++ b.data) = [' '] := by
      show List.takeWhile _ (' ' :: '&' :: ' ' :: b.data) = [' ']
      rw [List.takeWhile_cons, if_pos (by decide), takeWhile_stop (by
        intro c hc
        simp only [List.take_succ_cons, List.take_zero, List.mem_singleton] at hc
        subst hc
        rfl)]
    rw [htw]
  have htrim1 : psTrim (String.mk (a.data ++ [' '])) = String.mk a.data := by
    unfold psTrim
    rw [data_strMk, trimList_nows_wsTail haws (by
      intro c hc
      simp only [List.mem_singleton] at hc
      subst hc
      rfl)]
  have htrima : psTrim (String.mk a.data) = String.mk a.data := by
    unfold psTrim
    rw [data_strMk, trimList_none haws]
  have hsplit2 : splitFeatFirst (String.mk a.data) = String.mk a.data := by
    unfold splitFeatFirst
    rw [data_strMk, beforeFeat_nows haws]
  unfold normalizeMultiArtist
  rw [htrig, if_pos rfl, hsplit, htrim1, hsplit2, htrima, strMk_data]

theorem featAt_feat (rest : List Char) :
    featAt ([' ', 'f', 'e', 'a', 't', ' '] ++ rest) = true := by
  show featAt (' ' :: 'f' :: 'e' :: 'a' :: 't' :: ' ' :: rest) = true
  simp [featAt, patAt, isWsChar, chEq]

theorem featAt_ft (rest : List Char) :
    featAt ([' ', 'f', 't', ' '] ++ rest) = true := by
  show featAt (' ' :: 'f' :: 't' :: ' ' :: rest) = true
  simp [featAt, patAt, isWsChar, chEq]

/-! ## Metadata lemmas -/

theorem blank_of_not_truthy {s : String} (h : psTruthy s = false) :
    isBlank s = true := by
  simp only [psTruthy, Bool.not_eq_false'] at h
  have : s.data = [] := by simpa using h
  simp [isBlank, this]

theorem getMp3Metadata_trimmed {f : AudioFile} {md : Tags}
    (h : getMp3Metadata f = some md) :
    psTrim md.artist = md.artist ∧ psTrim md.albumArtist = md.albumArtist := by
  cases hr : f.rawTags with
  | none =>
    rw [getMp3Metadata, hr] at h
    exact absurd h (by simp)
  | some t =>
    rw [getMp3Metadata, hr] at h
    rw [Option.map_some'] at h
    injection h with h2
    subst h2
    exact ⟨psTrim_psTrim _, psTrim_psTrim _⟩

/-! ## Claims -/

/-- C1 counterexample: the claim that preview mode performs no filesystem
mutation whatsoever is false — the script creates the target root directory
before the dry-run check, so with `dryRun = true`, an absent target
directory, and even an empty file list, the filesystem changes. -/
theorem preview_creates_targetDir :
    (runScript ⟨"S", "T", true⟩ (fun _ => true) ⟨[], []⟩ []).1.fs ≠
      FS.mk [] [] := by
  decide

/-- C1 (amended): in preview mode the per-file loop performs no filesystem
mutation — no artist or album directory is created and no file is moved —
and when the target root directory already exists the whole script leaves
the filesystem unchanged; the only preview-mode mutation is the up-front
creation of the missing target root. -/
theorem preview_no_mutation (cfg : Config) (mo : String → Bool)
    (st : RunState) (fs0 : FS) (files : List AudioFile)
    (hdry : cfg.dryRun = true) :
    (runFiles cfg mo st files).1.fs = st.fs ∧
    (fs0.dirs.contains cfg.targetDir = true →
      (runScript cfg mo fs0 files).1.fs = fs0) := by
  refine ⟨runFiles_dryRun_fs mo hdry files st, ?_⟩
  intro hc
  unfold runScript
  rw [if_pos hc]
  exact runFiles_dryRun_fs mo hdry files _

/-- Witness for `preview_no_mutation` at a concrete input. -/
theorem preview_no_mutation_witness :
    (runFiles ⟨"S", "T", true⟩ (fun _ => true) ⟨⟨["T"], []⟩, 0, 0⟩
      [⟨"x", some ⟨"A", "B", "t", "1", ""⟩⟩]).1.fs = FS.mk ["T"] [] ∧
    (runScript ⟨"S", "T", true⟩ (fun _ => true) ⟨["T"], []⟩
      [⟨"x", some ⟨"A", "B", "t", "1", ""⟩⟩]).1.fs = FS.mk ["T"] [] := by
  have h := preview_no_mutation ⟨"S", "T", true⟩ (fun _ => true)
    ⟨⟨["T"], []⟩, 0, 0⟩ ⟨["T"], []⟩ [⟨"x", some ⟨"A", "B", "t", "1", ""⟩⟩] rfl
  exact ⟨h.1, h.2 (by decide)⟩

/-- C2: in live mode, a file whose computed destination already exists is
recorded as `SkippedExisting` and the set of files on disk is unchanged —
neither the source nor the existing destination is touched, and nothing is
overwritten. -/
theorem live_skip_existing (cfg : Config) (mo : String → Bool) (st : RunState)
    (f : AudioFile) (md : Tags) (hdry : cfg.dryRun = false)
    (hmd : getMp3Metadata f = some md)
    (hex : destPath cfg.targetDir (canonicalEntry md f.baseName) ∈ st.fs.files) :
    (processFile cfg mo st f).2 =
      .skippedExisting (destPath cfg.targetDir (canonicalEntry md f.baseName)) ∧
    (processFile cfg mo st f).1.fs.files = st.fs.files := by
  obtain ⟨h1, h2, _, _⟩ := processFile_skip hdry hmd hex
  exact ⟨h1, h2⟩

/-- Witness for `live_skip_existing` at a concrete input. -/
theorem live_skip_existing_witness :
    (processFile ⟨"S", "T", false⟩ (fun _ => true)
        ⟨⟨["T"], ["T/A/B/01 - t.mp3"]⟩, 0, 0⟩
        ⟨"x", some ⟨"A", "B", "t", "1", ""⟩⟩).2 =
      Outcome.skippedExisting "T/A/B/01 - t.mp3" ∧
    (processFile ⟨"S", "T", false⟩ (fun _ => true)
        ⟨⟨["T"], ["T/A/B/01 - t.mp3"]⟩, 0, 0⟩
        ⟨"x", some ⟨"A", "B", "t", "1", ""⟩⟩).1.fs.files =
      ["T/A/B/01 - t.mp3"] := by
  have h := live_skip_existing ⟨"S", "T", false⟩ (fun _ => true)
    ⟨⟨["T"], ["T/A/B/01 - t.mp3"]⟩, 0, 0⟩ ⟨"x", some ⟨"A", "B", "t", "1", ""⟩⟩
    ⟨"A", "B", "t", "1", ""⟩ rfl (by decide) (by decide)
  exact ⟨h.1.trans (by decide), h.2⟩

/-- C3: per-file failures never abort the run — every discovered file gets
an outcome, the final error count is the initial one plus the number of
error outcomes, a failed metadata read yields `unreadableMetadata` with the
error count bumped and the filesystem untouched, and a failed move yields
`moveFailed` with the error count bumped and the file set untouched. -/
theorem perfile_failures_never_abort (cfg : Config) (mo : String → Bool)
    (st : RunState) (files : List AudioFile) :
    ((runFiles cfg mo st files).2.length = files.length) ∧
    ((runFiles cfg mo st files).1.errorCount =
      st.errorCount + ((runFiles cfg mo st files).2.filter Outcome.isError).length) ∧
    (∀ f : AudioFile, getMp3Metadata f = none →
      (processFile cfg mo st f).2 = .unreadableMetadata ∧
      (processFile cfg mo st f).1.fs = st.fs ∧
      (processFile cfg mo st f).1.errorCount = st.errorCount + 1) ∧
    (∀ (f : AudioFile) (md : Tags), cfg.dryRun = false →
      getMp3Metadata f = some md →
      destPath cfg.targetDir (canonicalEntry md f.baseName) ∉ st.fs.files →
      mo (destPath cfg.targetDir (canonicalEntry md f.baseName)) = false →
      (processFile cfg mo st f).2 =
        .moveFailed (destPath cfg.targetDir (canonicalEntry md f.baseName)) ∧
      (processFile cfg mo st f).1.fs.files = st.fs.files ∧
      (processFile cfg mo st f).1.errorCount = st.errorCount + 1) := by
  refine ⟨runFiles_length cfg mo files st, runFiles_errorCount cfg mo files st,
    ?_, ?_⟩
  · intro f h
    rw [processFile_unreadable h]
    exact ⟨rfl, rfl, rfl⟩
  · intro f md hdry hmd hnex hmo
    obtain ⟨h1, h2, h3, _⟩ := processFile_moveFailed hdry hmd hnex hmo
    exact ⟨h1, h2, h3⟩

/-- Witness for `perfile_failures_never_abort` at a concrete input: a run
with a bad first file still processes both files. -/
theorem perfile_failures_never_abort_witness :
    (runFiles ⟨"S", "T", false⟩ (fun _ => true) ⟨⟨["T"], []⟩, 0, 0⟩
        [⟨"bad", none⟩, ⟨"x", some ⟨"A", "B", "t", "1", ""⟩⟩]).2.length = 2 ∧
    (processFile ⟨"S", "T", false⟩ (fun _ => true) ⟨⟨["T"], []⟩, 0, 0⟩
        ⟨"bad", none⟩).2 = Outcome.unreadableMetadata := by
  have h := perfile_failures_never_abort ⟨"S", "T", false⟩ (fun _ => true)
    ⟨⟨["T"], []⟩, 0, 0⟩ [⟨"bad", none⟩, ⟨"x", some ⟨"A", "B", "t", "1", ""⟩⟩]
  exact ⟨h.1, (h.2.2.1 ⟨"bad", none⟩ rfl).1⟩

/-- C4 counterexample: the claim that the track number is zero-padded to
exactly two digits fails on `"100"`, which resolves to the three-digit
string `"100"`. -/
theorem trackNumber_three_digits :
    formatTrackNumber "100" = "100" ∧ (formatTrackNumber "100").length ≠ 2 := by
  decide

/-- C4 (amended): blank input resolves to `"00"`, digit-free input resolves
to `"00"`, the first maximal run of decimal digits is parsed as a number
(dropping leading zeros) and rendered zero-padded to a minimum width of two,
and every resolved track number has at least two characters. -/
theorem trackNumber_amended :
    (∀ t : String, isBlank t = true → formatTrackNumber t = "00") ∧
    (∀ t : String, (∀ c ∈ t.data, isDigitCh c = false) →
      formatTrackNumber t = "00") ∧
    (∀ u v w : List Char, (∀ c ∈ u, isDigitCh c = false) → v ≠ [] →
      (∀ c ∈ v, isDigitCh c = true) → (∀ c ∈ w.take 1, isDigitCh c = false) →
      formatTrackNumber (String.mk (u ++ v ++ w)) = pad2 (natOfDigits v)) ∧
    (∀ t : String, 2 ≤ (formatTrackNumber t).length) := by
  refine ⟨?_, ?_, fun u v w hu hv hv' hw => formatTrackNumber_run hu hv hv' hw, ?_⟩
  · intro t h
    simp [formatTrackNumber, h]
  · intro t h
    unfold formatTrackNumber
    rw [dropWhile_all (fun c hc => by simp [h c hc])]
    split <;> rfl
  · intro t
    unfold formatTrackNumber
    by_cases hb : isBlank t = true
    · rw [if_pos hb]
      decide
    · rw [if_neg hb]
      cases hdrop : t.data.dropWhile (fun c => !isDigitCh c) with
      | nil => decide
      | cons c rest => exact pad2_length _

/-- Witness for `trackNumber_amended` at concrete inputs. -/
theorem trackNumber_amended_witness :
    formatTrackNumber "  " = "00" ∧ formatTrackNumber "ab" = "00" ∧
    formatTrackNumber "3/12" = "03" ∧ 2 ≤ (formatTrackNumber "100").length := by
  have h := trackNumber_amended
  refine ⟨h.1 "  " (by decide), h.2.1 "ab" (by decide), ?_, h.2.2.2 "100"⟩
  have h3 := h.2.2.1 [] ['3'] ['/', '1', '2'] (by decide) (by decide)
    (by decide) (by decide)
  exact h3.trans (by decide)

/-- C5 counterexample: the claim that an artist name containing `&` is
truncated to its first component fails on `"A&B"` — the trigger regex
requires whitespace around `&`, so the resolved artist folder is `"A&B"`,
not `"A"`. -/
theorem ampersand_not_truncated :
    (canonicalEntry ⟨"", "", "", "", "A&B"⟩ "x").artistName = "A&B" ∧
    (canonicalEntry ⟨"", "", "", "", "A&B"⟩ "x").artistName ≠ "A" := by
  decide

/-- C5 (amended): truncation fires when the name contains `,` or `;`
anywhere, or `&`/`feat`/`ft` surrounded by whitespace; a clean first
component followed by such a separator collapses to that component, while a
name with no `,`/`;` and no whitespace at all (such as `"A&B"`) is left
unchanged. -/
theorem multiArtist_amended (a b : String)
    (ha : a.data ≠ [])
    (haws : ∀ c ∈ a.data, isWsChar c = false)
    (hasep : ∀ c ∈ a.data, (c = ',' || c = ';' || c = '&') = false)
    (hb : b.data ≠ [])
    (hbh : ∀ c ∈ b.data.take 1,
      isWsChar c = false ∧ (c = ',' || c = ';' || c = '&') = false) :
    normalizeMultiArtist (a ++ "," ++ b) = a ∧
    normalizeMultiArtist (a ++ ";" ++ b) = a ∧
    normalizeMultiArtist (a ++ " & " ++ b) = a ∧
    normalizeMultiArtist (a ++ " feat " ++ b) = a ∧
    normalizeMultiArtist (a ++ " ft " ++ b) = a ∧
    (∀ s : String, (∀ c ∈ s.data, isWsChar c = false) →
      (∀ c ∈ s.data, (c = ',' || c = ';') = false) →
      normalizeMultiArtist s = s) := by
  refine ⟨?_, ?_, normalize_amp ha haws hasep, ?_, ?_,
    fun s h1 h2 => normalizeMultiArtist_plain h1 h2⟩
  · exact normalize_sepChar ',' (by decide) ha haws hasep
  · exact normalize_sepChar ';' (by decide) ha haws hasep
  · exact normalize_tok ha haws hasep hb hbh featAt_feat (by decide)
  · exact normalize_tok ha haws hasep hb hbh featAt_ft (by decide)

/-- Witness for `multiArtist_amended` at concrete inputs. -/
theorem multiArtist_amended_witness :
    normalizeMultiArtist "A feat B" = "A" ∧
    normalizeMultiArtist "A, B" = "A" ∧
    normalizeMultiArtist "A&B" = "A&B" := by
  have h := multiArtist_amended "A" "B" (by decide) (by decide) (by decide)
    (by decide) (by decide)
  exact ⟨h.2.2.2.1, h.1, h.2.2.2.2.2 "A&B" (by decide) (by decide)⟩

/-- C6: the artist name is resolved in priority order — a non-empty
`albumArtist` wins, then a non-empty `artist`, then the trimmed left capture
of the `<left> - <right>` pattern on the base name, then the literal
`"Unknown Artist"`; whenever `albumArtist` is non-empty the `artist` tag is
ignored entirely. -/
theorem artist_priority (f : AudioFile) (md : Tags)
    (hmd : getMp3Metadata f = some md) :
    (psTruthy md.albumArtist = true →
      resolveArtistPre md f.baseName = md.albumArtist) ∧
    (psTruthy md.albumArtist = false → psTruthy md.artist = true →
      resolveArtistPre md f.baseName = md.artist) ∧
    (psTruthy md.albumArtist = false → psTruthy md.artist = false →
      ∀ l r, baseNameSplit f.baseName = some (l, r) →
        resolveArtistPre md f.baseName = psTrim l) ∧
    (psTruthy md.albumArtist = false → psTruthy md.artist = false →
      baseNameSplit f.baseName = none →
      resolveArtistPre md f.baseName = "Unknown Artist") ∧
    (psTruthy md.albumArtist = true → ∀ a : String,
      resolveArtist { md with artist := a } f.baseName =
        resolveArtist md f.baseName) := by
  obtain ⟨hta, htaa⟩ := getMp3Metadata_trimmed hmd
  refine ⟨?_, ?_, ?_, ?_, ?_⟩
  · intro ht
    simp only [resolveArtistPre, ht, if_true,
      not_blank_of_truthy_fix htaa ht, Bool.false_eq_true, if_false]
  · intro ht hart
    simp only [resolveArtistPre, ht, Bool.false_eq_true, if_false,
      not_blank_of_truthy_fix hta hart]
  · intro ht hart l r hsplit
    simp only [resolveArtistPre, ht, Bool.false_eq_true, if_false,
      blank_of_not_truthy hart, if_true, hsplit]
  · intro ht hart hsplit
    simp only [resolveArtistPre, ht, Bool.false_eq_true, if_false,
      blank_of_not_truthy hart, if_true, hsplit]
  · intro ht a
    unfold resolveArtist
    have h1 : resolveArtistPre { md with artist := a } f.baseName =
        md.albumArtist := by
      simp only [resolveArtistPre, ht, if_true,
        not_blank_of_truthy_fix htaa ht, Bool.false_eq_true, if_false]
    have h2 : resolveArtistPre md f.baseName = md.albumArtist := by
      simp only [resolveArtistPre, ht, if_true,
        not_blank_of_truthy_fix htaa ht, Bool.false_eq_true, if_false]
    rw [h1, h2]

/-- Witness for `artist_priority` at concrete inputs covering all four
priority levels and the artist-ignored property. -/
theorem artist_priority_witness :
    resolveArtistPre ⟨"Art", "Alb", "t", "1", "AA"⟩ "X - Y" = "AA" ∧
    resolveArtistPre ⟨"Art", "Alb", "t", "1", ""⟩ "X - Y" = "Art" ∧
    resolveArtistPre ⟨"", "Alb", "t", "1", ""⟩ "X - Y" = "X" ∧
    resolveArtistPre ⟨"", "Alb", "t", "1", ""⟩ "XY" = "Unknown Artist" ∧
    resolveArtist ⟨"ignored", "Alb", "t", "1", "AA"⟩ "X - Y" =
      resolveArtist ⟨"Art", "Alb", "t", "1", "AA"⟩ "X - Y" := by
  have h1 := artist_priority ⟨"X - Y", some ⟨"Art", "Alb", "t", "1", "AA"⟩⟩
    ⟨"Art", "Alb", "t", "1", "AA"⟩ (by decide)
  have h2 := artist_priority ⟨"X - Y", some ⟨"Art", "Alb", "t", "1", ""⟩⟩
    ⟨"Art", "Alb", "t", "1", ""⟩ (by decide)
  have h3 := artist_priority ⟨"X - Y", some ⟨"", "Alb", "t", "1", ""⟩⟩
    ⟨"", "Alb", "t", "1", ""⟩ (by decide)
  have h4 := artist_priority ⟨"XY", some ⟨"", "Alb", "t", "1", ""⟩⟩
    ⟨"", "Alb", "t", "1", ""⟩ (by decide)
  refine ⟨h1.1 (by decide), h2.2.1 (by decide) (by decide),
    (h3.2.2.1 (by decide) (by decide) "X" "Y" (by decide)).trans (by decide),
    h4.2.2.2.1 (by decide) (by decide) (by decide), ?_⟩
  exact h1.2.2.2.2 (by decide) "ignored"

/-- C7: sanitization is idempotent, and a string that is empty or consists
only of filesystem-illegal characters sanitizes to `"Unknown"`. -/
theorem sanitize_idempotent :
    (∀ s : String, sanitizeName (sanitizeName s) = sanitizeName s) ∧
    (∀ s : String, (∀ c ∈ s.data, invalidFileNameChar c = true) →
      sanitizeName s = "Unknown") := by
  have key : ∀ t : String, (∀ c ∈ t.data, invalidFileNameChar c = false) →
      psTrim t = t → isBlank t = false → sanitizeName t = t := by
    intro t hinv htrim hblank
    simp only [sanitizeName]
    rw [List.filter_eq_self.mpr (fun c hc => by simp [hinv c hc]),
      strMk_data, htrim, hblank]
    rfl
  constructor
  · intro s
    by_cases hb : isBlank (psTrim (String.mk
        (s.data.filter (fun c => !invalidFileNameChar c)))) = true
    · have hs : sanitizeName s = "Unknown" := by
        simp only [sanitizeName]
        rw [if_pos hb]
      rw [hs]
      decide
    · have hbf : isBlank (psTrim (String.mk
          (s.data.filter (fun c => !invalidFileNameChar c)))) = false :=
        Bool.eq_false_iff.mpr hb
      have hs : sanitizeName s = psTrim (String.mk
          (s.data.filter (fun c => !invalidFileNameChar c))) := by
        simp only [sanitizeName]
        rw [if_neg hb]
      rw [hs]
      apply key
      · intro c hc
        have h1 : c ∈ trimList (s.data.filter fun c => !invalidFileNameChar c) := hc
        have h2 := List.of_mem_filter (mem_trimList h1)
        simpa using h2
      · exact psTrim_psTrim _
      · exact hbf
  · intro s h
    have hfil : s.data.filter (fun c => !invalidFileNameChar c) = [] := by
      rw [List.filter_eq_nil_iff]
      intro c hc
      simp [h c hc]
    simp only [sanitizeName]
    rw [hfil]
    decide

/-- Witness for `sanitize_idempotent` at concrete inputs. -/
theorem sanitize_idempotent_witness :
    sanitizeName (sanitizeName " a<b ") = sanitizeName " a<b " ∧
    sanitizeName "<>:?" = "Unknown" :=
  ⟨sanitize_idempotent.1 " a<b ", sanitize_idempotent.2 "<>:?" (by decide)⟩

theorem runScript_mem {cfg : Config} {mo : String → Bool} {fs0 : FS}
    (files : List AudioFile) (h : cfg.targetDir ∈ fs0.dirs) :
    runScript cfg mo fs0 files = runFiles cfg mo ⟨fs0, 0, 0⟩ files := by
  simp only [runScript]
  rw [if_pos (List.elem_iff.mpr h)]

/-- C8 counterexample: running the reorganizer twice does not yield
`SkippedExisting` for every file — a file with unreadable metadata yields an
error outcome, not `SkippedExisting`, on the second run too. -/
theorem second_run_not_all_skipped :
    ((runScript ⟨"S", "T", false⟩ (fun _ => true)
        (runScript ⟨"S", "T", false⟩ (fun _ => true) ⟨["T"], []⟩
          [⟨"bad", none⟩]).1.fs
        [⟨"bad", none⟩]).2.all
      (fun o => match o with
        | Outcome.skippedExisting _ => true
        | _ => false)) = false := by
  decide

/-- C8 (amended): rerunning the live reorganizer over the same file list
(with source paths outside the target tree) leaves the filesystem exactly as
the first run left it, and every file whose metadata is readable and whose
move the environment does not veto is `SkippedExisting` on the second run;
files with unreadable metadata or vetoed moves repeat their error outcome. -/
theorem rerun_idempotent (cfg : Config) (mo : String → Bool) (fs0 : FS)
    (files : List AudioFile) (hdry : cfg.dryRun = false)
    (hsep : ∀ g ∈ files, targetRooted cfg (srcPath cfg g) = false) :
    (runScript cfg mo (runScript cfg mo fs0 files).1.fs files).1.fs =
      (runScript cfg mo fs0 files).1.fs ∧
    (∀ (i : Nat) (f : AudioFile), files[i]? = some f →
      ∀ md, getMp3Metadata f = some md →
      mo (destPath cfg.targetDir (canonicalEntry md f.baseName)) = true →
      (runScript cfg mo (runScript cfg mo fs0 files).1.fs files).2[i]? =
        some (Outcome.skippedExisting
          (destPath cfg.targetDir (canonicalEntry md f.baseName)))) := by
  have hrs : runScript cfg mo fs0 files =
      runFiles cfg mo ⟨(if fs0.dirs.contains cfg.targetDir then fs0
        else { fs0 with dirs := cfg.targetDir :: fs0.dirs }), 0, 0⟩ files := rfl
  have htd : cfg.targetDir ∈ (runScript cfg mo fs0 files).1.fs.dirs := by
    rw [hrs]
    apply runFiles_dirs_mono
    by_cases hc : fs0.dirs.contains cfg.targetDir = true
    · rw [if_pos hc]
      exact List.elem_iff.mp hc
    · rw [if_neg hc]
      simp
  have hsettled : ∀ f ∈ files, ∀ md, getMp3Metadata f = some md →
      albumDirOf cfg.targetDir (canonicalEntry md f.baseName) ∈
        (runScript cfg mo fs0 files).1.fs.dirs ∧
      (destPath cfg.targetDir (canonicalEntry md f.baseName) ∈
          (runScript cfg mo fs0 files).1.fs.files ∨
       mo (destPath cfg.targetDir (canonicalEntry md f.baseName)) = false) := by
    intro f hf md hmd
    rw [hrs]
    obtain ⟨h1, h2⟩ := runFiles_post hdry files
      ⟨(if fs0.dirs.contains cfg.targetDir then fs0
        else { fs0 with dirs := cfg.targetDir :: fs0.dirs }), 0, 0⟩
      hsep f hf md hmd
    refine ⟨h1, ?_⟩
    by_cases hmo : mo (destPath cfg.targetDir (canonicalEntry md f.baseName)) = true
    · exact Or.inl (h2 hmo)
    · exact Or.inr (Bool.eq_false_iff.mpr hmo)
  have hr2 : runScript cfg mo (runScript cfg mo fs0 files).1.fs files =
      runFiles cfg mo ⟨(runScript cfg mo fs0 files).1.fs, 0, 0⟩ files :=
    runScript_mem files htd
  obtain ⟨hfs2, hout2⟩ := runFiles_stationary hdry files
    ⟨(runScript cfg mo fs0 files).1.fs, 0, 0⟩
    (fun f hf md hmd => hsettled f hf md hmd)
  constructor
  · rw [hr2, hfs2]
  · intro i f hif md hmd hmo
    rw [hr2, hout2, List.getElem?_map, hif, Option.map_some']
    have hin : destPath cfg.targetDir (canonicalEntry md f.baseName) ∈
        (runScript cfg mo fs0 files).1.fs.files := by
      rcases (hsettled f (List.getElem?_mem hif) md hmd).2 with h | h
      · exact h
      · rw [hmo] at h
        exact absurd h (by simp)
    exact congrArg some
      (@processFile_skip cfg mo ⟨(runScript cfg mo fs0 files).1.fs, 0, 0⟩
        f md hdry hmd hin).1

/-- Witness for `rerun_idempotent` at a concrete input: a one-file library
is unchanged by a second run and the file is skipped. -/
theorem rerun_idempotent_witness :
    (runScript ⟨"S", "T", false⟩ (fun _ => true)
        (runScript ⟨"S", "T", false⟩ (fun _ => true) ⟨["T"], []⟩
          [⟨"x", some ⟨"A", "B", "t", "1", ""⟩⟩]).1.fs
        [⟨"x", some ⟨"A", "B", "t", "1", ""⟩⟩]).1.fs =
      (runScript ⟨"S", "T", false⟩ (fun _ => true) ⟨["T"], []⟩
        [⟨"x", some ⟨"A", "B", "t", "1", ""⟩⟩]).1.fs ∧
    (runScript ⟨"S", "T", false⟩ (fun _ => true)
        (runScript ⟨"S", "T", false⟩ (fun _ => true) ⟨["T"], []⟩
          [⟨"x", some ⟨"A", "B", "t", "1", ""⟩⟩]).1.fs
        [⟨"x", some ⟨"A", "B", "t", "1", ""⟩⟩]).2[0]? =
      some (Outcome.skippedExisting "T/A/B/01 - t.mp3") := by
  have h := rerun_idempotent ⟨"S", "T", false⟩ (fun _ => true) ⟨["T"], []⟩
    [⟨"x", some ⟨"A", "B", "t", "1", ""⟩⟩] rfl (by decide)
  refine ⟨h.1, ?_⟩
  have h2 := h.2 0 ⟨"x", some ⟨"A", "B", "t", "1", ""⟩⟩ (by decide)
    ⟨"A", "B", "t", "1", ""⟩ (by decide) rfl
  exact h2.trans (by decide)

/-- C9: a file named `Queen - Bohemian Rhapsody.mp3` with all-empty tags
resolves, in live mode, to the destination
`<target>/Queen/Unknown Album/00 - Bohemian Rhapsody.mp3` and is moved
there. -/
theorem queen_example :
    (∀ target : String,
      destPath target (canonicalEntry ⟨"", "", "", "", ""⟩
        "Queen - Bohemian Rhapsody") =
        target ++ "/Queen/Unknown Album/00 - Bohemian Rhapsody.mp3") ∧
    (runScript ⟨"S", "T", false⟩ (fun _ => true) ⟨["T"], []⟩
        [⟨"Queen - Bohemian Rhapsody", some ⟨"", "", "", "", ""⟩⟩]).2 =
      [Outcome.moved "T/Queen/Unknown Album/00 - Bohemian Rhapsody.mp3"] := by
  constructor
  · intro target
    have he : canonicalEntry ⟨"", "", "", "", ""⟩ "Queen - Bohemian Rhapsody" =
        ⟨"Queen", "Unknown Album", "00", "Bohemian Rhapsody"⟩ := by decide
    rw [he]
    apply String.ext
    simp only [destPath, albumDirOf, artistDirOf, joinPath,
      String.data_append, List.append_assoc]
    congr 1
  · decide

/-- C10: live mode gives a destination-exists skip neither a processed nor
an error increment, while preview mode increments the processed count for
every readable file; hence on an input whose destination already exists the
two modes report different counts and live `processed + errors` undercounts
the discovered files. -/
theorem summary_count_asymmetry :
    (∀ (cfg : Config) (mo : String → Bool) (st : RunState) (f : AudioFile)
      (md : Tags), cfg.dryRun = false → getMp3Metadata f = some md →
      destPath cfg.targetDir (canonicalEntry md f.baseName) ∈ st.fs.files →
      (processFile cfg mo st f).1.processedCount = st.processedCount ∧
      (processFile cfg mo st f).1.errorCount = st.errorCount) ∧
    (∀ (cfg : Config) (mo : String → Bool) (st : RunState) (f : AudioFile)
      (md : Tags), cfg.dryRun = true → getMp3Metadata f = some md →
      (processFile cfg mo st f).1.processedCount = st.processedCount + 1) ∧
    ((runScript ⟨"S", "T", false⟩ (fun _ => true)
        ⟨["T"], ["T/A/B/01 - t.mp3"]⟩
        [⟨"x", some ⟨"A", "B", "t", "1", ""⟩⟩]).1.processedCount +
      (runScript ⟨"S", "T", false⟩ (fun _ => true)
        ⟨["T"], ["T/A/B/01 - t.mp3"]⟩
        [⟨"x", some ⟨"A", "B", "t", "1", ""⟩⟩]).1.errorCount < 1 ∧
     (runScript ⟨"S", "T", true⟩ (fun _ => true)
        ⟨["T"], ["T/A/B/01 - t.mp3"]⟩
        [⟨"x", some ⟨"A", "B", "t", "1", ""⟩⟩]).1.processedCount = 1) := by
  refine ⟨?_, ?_, by decide⟩
  · intro cfg mo st f md hdry hmd hex
    obtain ⟨_, _, h3, h4⟩ := processFile_skip hdry hmd hex
    exact ⟨h3, h4⟩
  · intro cfg mo st f md hdry hmd
    rw [processFile_dryRun hdry hmd]

/-- Witness for `summary_count_asymmetry` at a concrete input. -/
theorem summary_count_asymmetry_witness :
    (processFile ⟨"S", "T", false⟩ (fun _ => true)
        ⟨⟨["T"], ["T/A/B/01 - t.mp3"]⟩, 0, 0⟩
        ⟨"x", some ⟨"A", "B", "t", "1", ""⟩⟩).1.processedCount = 0 ∧
    (processFile ⟨"S", "T", true⟩ (fun _ => true)
        ⟨⟨["T"], ["T/A/B/01 - t.mp3"]⟩, 0, 0⟩
        ⟨"x", some ⟨"A", "B", "t", "1", ""⟩⟩).1.processedCount = 1 := by
  have h := summary_count_asymmetry
  exact ⟨(h.1 ⟨"S", "T", false⟩ (fun _ => true)
      ⟨⟨["T"], ["T/A/B/01 - t.mp3"]⟩, 0, 0⟩ ⟨"x", some ⟨"A", "B", "t", "1", ""⟩⟩
      ⟨"A", "B", "t", "1", ""⟩ rfl (by decide) (by decide)).1,
    h.2.1 ⟨"S", "T", true⟩ (fun _ => true)
      ⟨⟨["T"], ["T/A/B/01 - t.mp3"]⟩, 0, 0⟩ ⟨"x", some ⟨"A", "B", "t", "1", ""⟩⟩
      ⟨"A", "B", "t", "1", ""⟩ rfl (by decide)⟩

end PlexReorg
